import Mathlib

/-!
Verification of the zero_buffer byte-buffer engine.

The development embeds the data model and operations of `fast_buffer.py`
(classes `BufferPool`, `Buffer`, `BufferView`, `BufferGroup`) and of the
older snapshot `buffer.py` (class `Buffer`, here `PyBuffer`) as executable
Lean functions over byte sequences modelled as `List Nat`.  Machine bytes
are plain naturals; indices that the Python code manipulates as possibly
negative integers are kept as `Int`.  Exceptions are modelled by `Except`
with an explicit error type.
-/

deriving instance DecidableEq for Except

/-- The exception kinds the embedded code can raise. -/
inductive PyError
  | bufferFull
  | valueError
  | indexError
  | notImplemented
deriving DecidableEq

/-- Word width of the bloom mask: `ffi.sizeof("long") * 8`, i.e. 64 on the
64-bit platforms the code targets. -/
def BLOOM_WIDTH : Nat := 64

/-- Byte of the region `H` at integer offset `i`.  Every read the embedded
code performs is in bounds under the hypotheses of the theorems below;
out-of-range offsets are mapped to the junk value 0. -/
def byteAt (H : List Nat) (i : Int) : Nat :=
  if 0 ≤ i then H.getD i.toNat 0 else 0

/-- Python slice `H[start:stop]` of a view, for already-normalised
`0 ≤ start ≤ stop`. -/
def pySlice (H : List Nat) (start stop : Nat) : List Nat :=
  (H.take stop).drop start

/-- `H[i:i+len(N)] == N`: the needle `N` occurs in `H` at position `i`. -/
def MatchAt (H N : List Nat) (i : Nat) : Prop :=
  (H.drop i).take N.length = N

instance (H N : List Nat) (i : Nat) : Decidable (MatchAt H N i) := by
  unfold MatchAt
  infer_instance

/-- Pointwise form of `MatchAt` with out-of-range reads defaulted to 0; this
is the shape of the loop invariant of the search proofs below. -/
def PtMatch (H N : List Nat) (k : Nat) : Prop :=
  ∀ j, j < N.length → H.getD (k + j) 0 = N.getD j 0

/-- Evaluation of the Python idiom `stop or len(self)`: both `None` and `0`
select the default length. -/
def orLen (stop : Option Int) (len : Nat) : Int :=
  match stop with
  | none => (len : Int)
  | some s => if s = 0 then (len : Int) else s

namespace BufferView

/-- `BufferView._bloom_add`. -/
def bloom_add (mask c : Nat) : Nat :=
  mask ||| (1 <<< (c &&& (BLOOM_WIDTH - 1)))

/-- `BufferView._bloom`. -/
def bloom (mask c : Nat) : Nat :=
  mask &&& (1 <<< (c &&& (BLOOM_WIDTH - 1)))

/-- `BufferView._make_find_mask`.  The skip is an integer exactly as in the
source (`skip = mlast - i - 1`, initialised to `mlast - 1`). -/
def make_find_mask (needle : List Nat) : Nat × Int :=
  let mlast := needle.length - 1
  let r := (List.range mlast).foldl
    (fun acc i =>
      (bloom_add acc.1 (needle.getD i 0),
       if needle.getD i 0 = needle.getD mlast 0 then (mlast : Int) - i - 1 else acc.2))
    (0, (mlast : Int) - 1)
  (bloom_add r.1 (needle.getD mlast 0), r.2)

/-- The `while` loop of `BufferView._multi_char_find`.  `i` is the loop
variable, one less than the next candidate position.  The loop advances `i`
by at least one per iteration; `fuel` bounds the number of iterations and
the callers supply enough for the loop always to reach its exit condition
(the spec lemma below holds for every sufficient fuel, so the value is
fuel-independent).  The skip produced by `_make_find_mask` is nonnegative
for every needle of length at least 2, the only needles this loop is called
on, so it is taken here as a natural number. -/
def multi_char_find_loop (H N : List Nat) (start stop : Int) (mask : Nat) (skip : Nat) :
    Nat → Int → Int
  | 0, _ => -1
  | fuel + 1, i =>
    if i + 1 ≤ start + ((stop - start) - (N.length : Int)) then
      if byteAt H ((i + 1) + (N.length : Int) - 1) = N.getD (N.length - 1) 0 then
        if ∀ j < N.length - 1, byteAt H ((i + 1) + (j : Int)) = N.getD j 0 then
          i + 1
        else if (i + 1) + (N.length : Int) < (H.length : Int) ∧
            bloom mask (byteAt H ((i + 1) + (N.length : Int))) = 0 then
          multi_char_find_loop H N start stop mask skip fuel ((i + 1) + (N.length : Int))
        else
          multi_char_find_loop H N start stop mask skip fuel ((i + 1) + (skip : Int))
      else if (i + 1) + (N.length : Int) < (H.length : Int) ∧
          bloom mask (byteAt H ((i + 1) + (N.length : Int))) = 0 then
        multi_char_find_loop H N start stop mask skip fuel ((i + 1) + (N.length : Int))
      else
        multi_char_find_loop H N start stop mask skip fuel (i + 1)
    else -1

/-- `BufferView._multi_char_find`. -/
def multi_char_find (H N : List Nat) (start stop : Int) (mask : Nat) (skip : Int) : Int :=
  multi_char_find_loop H N start stop mask skip.toNat ((stop - start).toNat + 1) (start - 1)

/-- The platform `memchr`, scanning `count` bytes from offset `i` of `H` for
the byte `c`; returns the smallest absolute index holding `c`, and `-1` for
`NULL`.  A scan that would run past the end of `H` reads unallocated memory
(possible only for the buggy caller `PyBuffer.find`); such reads are
modelled as misses. -/
def memchrFrom (H : List Nat) (c : Nat) : Nat → Nat → Int
  | _, 0 => -1
  | i, count + 1 =>
    if i < H.length ∧ H.getD i 0 = c then (i : Int)
    else if i < H.length then memchrFrom H c (i + 1) count
    else -1

/-- `BufferView.find`. -/
def find (H needle : List Nat) (start0 : Int) (stop0 : Option Int) : Int :=
  let stop1 := orLen stop0 H.length
  let start := if start0 < 0 then 0 else start0
  let stop := if stop1 > (H.length : Int) then (H.length : Int) else stop1
  if stop - start < 0 then -1
  else if needle.length = 0 then start
  else if needle.length = 1 then
    memchrFrom H (needle.getD 0 0) start.toNat (stop - start).toNat
  else
    let ms := make_find_mask needle
    multi_char_find H needle start stop ms.1 ms.2

/-- The generator loop of `BufferView._split_char`.  `fuel` bounds the loop
iterations; `split` passes `H.length + 1`, which always suffices because
each iteration advances `start` past the found separator. -/
def split_char_loop (H by_ : List Nat) : Nat → Int → Nat → List (List Nat)
  | 0, _, start => [H.drop start]
  | fuel + 1, maxsplit, start =>
    if maxsplit ≠ 0 then
      let next := find H by_ (start : Int) none
      if next = -1 then [H.drop start]
      else pySlice H start next.toNat ::
        split_char_loop H by_ fuel (maxsplit - 1) (next.toNat + 1)
    else [H.drop start]

/-- The generator loop of `BufferView._split_multi_char`; same fuel
convention as `split_char_loop`. -/
def split_multi_loop (H by_ : List Nat) (mask : Nat) (skip : Int) : Nat → Int → Nat → List (List Nat)
  | 0, _, start => [H.drop start]
  | fuel + 1, maxsplit, start =>
    if maxsplit ≠ 0 then
      let next := multi_char_find H by_ (start : Int) (H.length : Int) mask skip
      if next < 0 then [H.drop start]
      else pySlice H start next.toNat ::
        split_multi_loop H by_ mask skip fuel (maxsplit - 1) (next.toNat + by_.length)
    else [H.drop start]

/-- `BufferView.split` (dispatch and the two generator bodies).  The empty
separator raises `ValueError` before any piece is produced. -/
def split (H by_ : List Nat) (maxsplit : Int) : Except PyError (List (List Nat)) :=
  if by_.length = 0 then .error .valueError
  else if by_.length = 1 then .ok (split_char_loop H by_ (H.length + 1) maxsplit 0)
  else
    let ms := make_find_mask by_
    .ok (split_multi_loop H by_ ms.1 ms.2 (H.length + 1) maxsplit 0)

end BufferView

/-- Joining a list of pieces by inserting `sep` between consecutive pieces
(the reconstruction operation named by the spec). -/
def joinSep (sep : List Nat) : List (List Nat) → List Nat
  | [] => []
  | [p] => p
  | p :: q :: ps => p ++ sep ++ joinSep sep (q :: ps)

namespace BufferGroup

/-- The single-byte scan of `BufferGroup.find`: `view.find(needle)` on each
view with default arguments, accumulating `overall_pos`. -/
def scan_views (views : List (List Nat)) (c : Nat) (overall : Int) : Int :=
  match views with
  | [] => -1
  | v :: vs =>
    let pos := BufferView.find v [c] 0 none
    if pos ≠ -1 then overall + pos else scan_views vs c (overall + (v.length : Int))

/-- `BufferGroup.find`. -/
def find (views : List (List Nat)) (needle : List Nat) (start0 : Int) (stop0 : Option Int) :
    Except PyError Int :=
  let len := (views.map List.length).sum
  let stop1 := orLen stop0 len
  let start := if start0 < 0 then 0 else start0
  let stop := if stop1 > (len : Int) then (len : Int) else stop1
  if stop - start < 0 then .ok (-1)
  else if needle.length = 0 then .ok start
  else if needle.length = 1 then .ok (scan_views views (needle.getD 0 0) 0)
  else .error .notImplemented

/-- `BufferGroup._find_positions_for_index`. -/
def find_positions_for_index (views : List (List Nat)) (idx : Nat) : Except PyError (Nat × Nat) :=
  match views with
  | [] => .error .indexError
  | v :: vs =>
    if idx < v.length then .ok (0, idx)
    else
      match find_positions_for_index vs (idx - v.length) with
      | .ok (vi, p) => .ok (vi + 1, p)
      | .error e => .error e

/-- The slice case of `BufferGroup.__getitem__`, after `slice.indices` has
normalised `start` and `stop` (`step` is 1).  The result is the list of
views of the returned object; when the code returns a bare `BufferView`
the list is that single view. -/
def getitem_slice (views : List (List Nat)) (start stop : Nat) :
    Except PyError (List (List Nat)) :=
  let len := (views.map List.length).sum
  if stop < start then .error .valueError
  else
    match find_positions_for_index views start with
    | .error e => .error e
    | .ok (svi, si) =>
      if stop = len then .ok ((views.getD svi []).drop si :: views.drop (svi + 1))
      else
        match find_positions_for_index views stop with
        | .error e => .error e
        | .ok (tvi, ti) =>
          if svi = tvi then .ok [pySlice (views.getD svi []) si ti]
          else .ok (((views.getD svi []).drop si ::
            (views.drop (svi + 1)).take (tvi - 1 - (svi + 1))) ++ [(views.getD tvi []).take ti])

end BufferGroup

namespace PyBuffer

/-- `buffer.py` `Buffer.find`.  It shares `_make_find_mask` and
`_multi_char_find` with the view implementation (the same algorithm);
note that the single-byte branch passes `end` as the memchr byte count
rather than `end - start`. -/
def find (H sub : List Nat) (start0 : Int) (end0 : Option Int) : Int :=
  let end1 := orLen end0 H.length
  let start := if start0 < 0 then 0 else start0
  let e := if end1 > (H.length : Int) then (H.length : Int) else end1
  if e - start < 0 then -1
  else if sub.length = 0 then start
  else if sub.length = 1 then
    BufferView.memchrFrom H (sub.getD 0 0) start.toNat e.toNat
  else
    let ms := BufferView.make_find_mask sub
    BufferView.multi_char_find H sub start e ms.1 ms.2

end PyBuffer

/-- A `fast_buffer.Buffer`: a fixed backing array plus the write cursor. -/
structure FBuffer where
  data : List Nat
  writepos : Nat
deriving DecidableEq

namespace FBuffer

/-- `Buffer.capacity`: the length of the backing allocation. -/
def capacity (b : FBuffer) : Nat := b.data.length

/-- `Buffer.free`. -/
def free (b : FBuffer) : Nat := b.capacity - b.writepos

/-- `Buffer.add_bytes`.  The write loop is modelled by folding `List.set`
over the byte indices, one set per loop iteration; an exception leaves the
buffer as it was (nothing is mutated before the raise). -/
def add_bytes (buf : FBuffer) (b : List Nat) : Except PyError (FBuffer × Nat) :=
  if buf.free = 0 then .error .bufferFull
  else
    let n := min b.length buf.free
    .ok (⟨(List.range n).foldl (fun d i => d.set (buf.writepos + i) (b.getD i 0)) buf.data,
          buf.writepos + n⟩, n)

/-- What the `BufferView` constructor receives from `Buffer.view`: the
memory from offset `start` (`_data + start`) and `_length = stop - start`. -/
structure ViewRes where
  data : List Nat
  length : Nat
deriving DecidableEq

/-- The bytes a view exposes. -/
def ViewRes.content (v : ViewRes) : List Nat := v.data.take v.length

/-- `Buffer.view`.  `stop` defaults to the write cursor (a genuine `None`
test in the source, not truthiness). -/
def view (buf : FBuffer) (start : Int) (stop0 : Option Int) : Except PyError ViewRes :=
  let stop := stop0.getD (buf.writepos : Int)
  if stop < start ∨ ¬(0 ≤ start ∧ start ≤ (buf.writepos : Int)) ∨ stop > (buf.writepos : Int) then
    .error .valueError
  else .ok ⟨buf.data.drop start.toNat, (stop - start).toNat⟩

end FBuffer

/-- A pool-managed buffer, identified by `id`; the byte contents are not
needed for the pool claims, only the write cursor. -/
structure PoolBuf where
  id : Nat
  writepos : Nat
deriving DecidableEq

/-- `BufferPool`: free list (slots hold `None` after being handed out) and
the count of free buffers. -/
structure BufferPool where
  capacity : Nat
  buffer_size : Nat
  freelist : List (Option PoolBuf)
  num_free : Nat
  next_id : Nat
deriving DecidableEq

namespace BufferPool

/-- `BufferPool.__init__`: `capacity` fresh buffers on the free list. -/
def init (capacity buffer_size : Nat) : BufferPool :=
  ⟨capacity, buffer_size, (List.range capacity).map (fun i => some ⟨i, 0⟩), capacity, capacity⟩

/-- `BufferPool.buffer`: pop from the free list if non-empty, else create a
fresh buffer (modelled with a fresh `id`). -/
def buffer (p : BufferPool) : Option PoolBuf × BufferPool :=
  if p.num_free ≠ 0 then
    (p.freelist.getD (p.num_free - 1) none,
     { p with num_free := p.num_free - 1, freelist := p.freelist.set (p.num_free - 1) none })
  else
    (some ⟨p.next_id, 0⟩, { p with next_id := p.next_id + 1 })

/-- `BufferPool.return_buffer`. -/
def return_buffer (p : BufferPool) (buf : PoolBuf) : BufferPool :=
  if p.num_free ≠ p.capacity then
    { p with freelist := p.freelist.set p.num_free (some buf), num_free := p.num_free + 1 }
  else p

end BufferPool

/-- `Buffer.release`: reset the write cursor, then hand the buffer back to
the pool.  Returns the buffer after the reset and the updated pool. -/
def PoolBuf.release (buf : PoolBuf) (p : BufferPool) : PoolBuf × BufferPool :=
  let buf2 : PoolBuf := { buf with writepos := 0 }
  (buf2, p.return_buffer buf2)

/-! ### Helper lemmas -/

theorem getD_eq_getElem_of_lt (l : List Nat) (i : Nat) (h : i < l.length) :
    l.getD i 0 = l[i] := by
  simp [List.getD_eq_getElem?_getD, List.getElem?_eq_getElem h]

theorem foldl_set_range (d b : List Nat) (p : Nat) :
    ∀ n, p + n ≤ d.length → n ≤ b.length →
      (List.range n).foldl (fun l i => l.set (p + i) (b.getD i 0)) d =
        d.take p ++ b.take n ++ d.drop (p + n) := by
  intro n
  induction n with
  | zero => intro h1 _; simp
  | succ n ih =>
    intro h1 h2
    rw [List.range_succ, List.foldl_append, List.foldl_cons, List.foldl_nil,
      ih (by omega) (by omega)]
    have hA : (d.take p).length = p := by simp; omega
    have hB : (b.take n).length = n := by simp; omega
    have hn : n < b.length := by omega
    have hpn : p + n < d.length := by omega
    have hAB : ((d.take p ++ b.take n)).length = p + n := by simp; omega
    rw [List.set_append_right _ _ (by omega)]
    rw [hAB, Nat.sub_self, List.drop_eq_getElem_cons hpn]
    have hbn : b.take (n + 1) = b.take n ++ [b[n]] := by
      rw [List.take_succ, List.getElem?_eq_getElem hn]
      rfl
    rw [List.set_cons_zero, getD_eq_getElem_of_lt b n hn]
    simp only [List.append_assoc]
    rw [hbn, List.append_assoc, List.singleton_append]
    rfl

/-! ### Claim C10: an explicit stop argument of 0 selects the full range -/

/-- Claim C10: for each of the three haystack types (a `BufferView`, a
`buffer.py` `Buffer`, a `BufferGroup`), `find(n, start, 0)` with an explicit
stop argument of `0` behaves identically to `find(n, start, len(H))`,
because the code evaluates `stop or len(self)` and `0` is falsy. -/
theorem find_stop_zero_default (H n : List Nat) (views : List (List Nat)) (start : Int) :
    BufferView.find H n start (some 0) = BufferView.find H n start (some (H.length : Int)) ∧
    PyBuffer.find H n start (some 0) = PyBuffer.find H n start (some (H.length : Int)) ∧
    BufferGroup.find views n start (some 0) =
      BufferGroup.find views n start (some (((views.map List.length).sum : Nat) : Int)) := by
  have horlen : ∀ len : Nat, orLen (some ((len : Nat) : Int)) len = ((len : Nat) : Int) := by
    intro len
    simp [orLen]
  have h0 : ∀ len : Nat, orLen (some 0) len = ((len : Nat) : Int) := by
    intro len
    simp [orLen]
  refine ⟨?_, ?_, ?_⟩
  · rw [BufferView.find, BufferView.find, h0, horlen]
  · rw [PyBuffer.find, PyBuffer.find, h0, horlen]
  · rw [BufferGroup.find, BufferGroup.find, h0, horlen]

/-! ### Claim C5: empty needle in find, empty separator in split -/

/-- Counterexample to claim C5 as stated: with `H = b"a"` and `start = 5`,
the claim says `find(H, b"", 5)` returns the clamp of 5 into `[0, len(H)]`,
i.e. 1; the code returns -1 because only the lower bound is clamped and the
`stop - start < 0` guard fires first. -/
theorem find_empty_needle_counterexample :
    BufferView.find [97] [] 5 none = -1 ∧ (-1 : Int) ≠ 1 := by decide

/-- Claim C5 (amended): with the default stop, `find(H, b"", start)` returns
`start` clamped below to 0 whenever that value is at most `len(H)`, and -1
when `start > len(H)`; in particular `find(H, b"") = 0` for `start = 0` on
every view.  `split` with a zero-length separator raises `ValueError`
(`EmptyNeedle`) and yields no piece. -/
theorem find_empty_needle_clamped (H : List Nat) (start : Int) (ms : Int) :
    (BufferView.find H [] start none =
      if (if start < 0 then 0 else start) ≤ (H.length : Int)
      then (if start < 0 then 0 else start) else -1) ∧
    BufferView.find H [] 0 none = 0 ∧
    BufferView.split H [] ms = Except.error PyError.valueError := by
  have h1 : BufferView.find H [] start none =
      if (if start < 0 then 0 else start) ≤ (H.length : Int)
      then (if start < 0 then 0 else start) else -1 := by
    simp only [BufferView.find, orLen, List.length_nil]
    split_ifs <;> omega
  have h2 : BufferView.find H [] 0 none = 0 := by
    simp [BufferView.find, orLen]
  exact ⟨h1, h2, rfl⟩

/-! ### Claim C6: the data produced by the table build phase -/

/-- Counterexample to claim C6 as stated: for the needle `b"aba"` the final
byte 97 also occurs at index `i = 0 < m - 1 = 2`, so the claim predicts
`skip = (m - 1) - i = 2`; the code computes `skip = mlast - i - 1 = 1`. -/
theorem make_find_mask_skip_counterexample :
    (BufferView.make_find_mask [97, 98, 97]).2 ≠ 2 ∧
    (BufferView.make_find_mask [97, 98, 97]).2 = 1 := by decide

/-! ### Claim C2: BufferGroup slicing -/

/-- Claim C2 is violated by the code: slicing the group of views
`[b"ab", b"cd", b"ef"]` with `[0:5]` must produce the bytes `b"abcde"` with
the interior view `b"cd"` kept, but `BufferGroup.__getitem__` takes
`self.views[start_view_idx + 1:stop_view_idx - 1]` (an off-by-one) and
returns the views `[b"ab", b"e"]`, i.e. the bytes `b"abe"`. -/
theorem group_slice_drops_interior_view :
    BufferGroup.getitem_slice [[97, 98], [99, 100], [101, 102]] 0 5 =
      Except.ok [[97, 98], [101]] ∧
    ([[97, 98], [101]] : List (List Nat)).flatten ≠
      pySlice ([[97, 98], [99, 100], [101, 102]] : List (List Nat)).flatten 0 5 := by
  decide

/-! ### Claim C3: single-byte find over a clamped range -/

/-- Claim C3 is violated by the code on two of the three haystack types.
`buffer.py` `Buffer.find` passes `end` instead of `end - start` as the
memchr byte count: on `H = b"axb"`, `find(b"b", 1, 2)` scans `[1, 3)` and
returns 2, although no position in the requested range `[1, 2)` holds
`b"b"` (so the claim requires -1).  `BufferGroup.find` calls `view.find`
without propagating `start`/`stop`: on the group `[b"ab"]`,
`find(b"a", 1)` returns 0, which is below `start`. -/
theorem find_range_bug :
    PyBuffer.find [97, 120, 98] [98] 1 (some 2) = 2 ∧
    (∀ i : Nat, 1 ≤ i → i < 2 → ([97, 120, 98] : List Nat).getD i 0 ≠ 98) ∧
    BufferGroup.find [[97, 98]] [97] 1 none = Except.ok 0 := by
  decide

/-! ### Claim C7: Buffer.add_bytes -/

/-- Claim C7: `add_bytes` raises `BufferFull` exactly when the buffer had no
free capacity before the call (the buffer is untouched in that case, nothing
being mutated before the raise); otherwise it writes exactly
`n = min(len(data), free)` bytes, returns `n`, advances the write cursor by
`n`, stores `data[0:n]` at positions `[old_writepos, old_writepos + n)` and
leaves the bytes below `old_writepos` unchanged. -/
theorem add_bytes_correct (buf : FBuffer) (b : List Nat) (hinv : buf.writepos ≤ buf.capacity) :
    (buf.writepos = buf.capacity → buf.add_bytes b = Except.error PyError.bufferFull) ∧
    (buf.writepos < buf.capacity →
      ∃ res : FBuffer × Nat,
        buf.add_bytes b = Except.ok res ∧
        res.2 = min b.length buf.free ∧
        res.1.writepos = buf.writepos + res.2 ∧
        res.1.data.take buf.writepos = buf.data.take buf.writepos ∧
        (res.1.data.drop buf.writepos).take res.2 = b.take res.2) := by
  constructor
  · intro hfull
    have hfree : buf.free = 0 := by
      unfold FBuffer.free
      omega
    simp [FBuffer.add_bytes, hfree]
  · intro hlt
    have hfree : buf.free ≠ 0 := by
      unfold FBuffer.free FBuffer.capacity at *
      omega
    have hok : buf.add_bytes b = Except.ok
        (⟨(List.range (min b.length buf.free)).foldl
            (fun d i => d.set (buf.writepos + i) (b.getD i 0)) buf.data,
          buf.writepos + min b.length buf.free⟩, min b.length buf.free) := by
      simp [FBuffer.add_bytes, hfree]
    refine ⟨_, hok, rfl, rfl, ?_, ?_⟩
    · rw [foldl_set_range buf.data b buf.writepos (min b.length buf.free)
        (by unfold FBuffer.free FBuffer.capacity at *; omega) (by omega)]
      rw [List.append_assoc, List.take_left'
        (by simp only [List.length_take]; unfold FBuffer.capacity at hinv; omega)]
    · rw [foldl_set_range buf.data b buf.writepos (min b.length buf.free)
        (by unfold FBuffer.free FBuffer.capacity at *; omega) (by omega)]
      rw [List.append_assoc, List.drop_left'
        (by simp only [List.length_take]; unfold FBuffer.capacity at hinv; omega)]
      rw [List.take_left' (by simp only [List.length_take]; omega)]

/-- Witness for C7: a concrete half-full buffer accepting a short write, and
the hypothesis facts discharged at that input. -/
theorem add_bytes_correct_witness :
    ((FBuffer.mk [1, 2, 3, 4] 2).writepos = (FBuffer.mk [1, 2, 3, 4] 2).capacity →
      (FBuffer.mk [1, 2, 3, 4] 2).add_bytes [97, 98, 99] = Except.error PyError.bufferFull) ∧
    ((FBuffer.mk [1, 2, 3, 4] 2).writepos < (FBuffer.mk [1, 2, 3, 4] 2).capacity →
      ∃ res : FBuffer × Nat,
        (FBuffer.mk [1, 2, 3, 4] 2).add_bytes [97, 98, 99] = Except.ok res ∧
        res.2 = min ([97, 98, 99] : List Nat).length (FBuffer.mk [1, 2, 3, 4] 2).free ∧
        res.1.writepos = (FBuffer.mk [1, 2, 3, 4] 2).writepos + res.2 ∧
        res.1.data.take (FBuffer.mk [1, 2, 3, 4] 2).writepos =
          ([1, 2, 3, 4] : List Nat).take (FBuffer.mk [1, 2, 3, 4] 2).writepos ∧
        (res.1.data.drop (FBuffer.mk [1, 2, 3, 4] 2).writepos).take res.2 =
          ([97, 98, 99] : List Nat).take res.2) :=
  add_bytes_correct ⟨[1, 2, 3, 4], 2⟩ [97, 98, 99] (by decide)

/-! ### Claim C8: Buffer.view range checking -/

/-- Claim C8: `view(start, stop)` (with `stop` defaulting to the write
cursor) raises `InvalidRange` (`ValueError`) exactly when `stop < start`,
`start < 0`, `start > writepos` or `stop > writepos`; on success it returns
a view of length `stop - start` whose content is the bytes of the buffer in
`[start, stop)`. -/
theorem view_correct (buf : FBuffer) (start : Int) (stop0 : Option Int) :
    (buf.view start stop0 = Except.error PyError.valueError ↔
      (stop0.getD (buf.writepos : Int) < start ∨ start < 0 ∨ start > (buf.writepos : Int) ∨
        stop0.getD (buf.writepos : Int) > (buf.writepos : Int))) ∧
    (∀ v : FBuffer.ViewRes, buf.view start stop0 = Except.ok v →
      (v.length : Int) = stop0.getD (buf.writepos : Int) - start ∧
      v.content = pySlice buf.data start.toNat (stop0.getD (buf.writepos : Int)).toNat) := by
  have hcond : (stop0.getD (buf.writepos : Int) < start ∨
      ¬(0 ≤ start ∧ start ≤ (buf.writepos : Int)) ∨
      stop0.getD (buf.writepos : Int) > (buf.writepos : Int)) ↔
      (stop0.getD (buf.writepos : Int) < start ∨ start < 0 ∨ start > (buf.writepos : Int) ∨
        stop0.getD (buf.writepos : Int) > (buf.writepos : Int)) := by
    constructor <;> intro h <;> omega
  simp only [FBuffer.view]
  split_ifs with h
  · refine ⟨iff_of_true rfl (hcond.mp h), ?_⟩
    intro v hv
    cases hv
  · constructor
    · refine iff_of_false (by simp) ?_
      intro hcontra
      exact h (hcond.mpr hcontra)
    · intro v hv
      have hran : ¬(stop0.getD (buf.writepos : Int) < start) ∧ 0 ≤ start ∧
          start ≤ (buf.writepos : Int) ∧
          ¬(stop0.getD (buf.writepos : Int) > (buf.writepos : Int)) := by
        constructor
        · intro hx
          exact h (Or.inl hx)
        constructor
        · by_contra hx
          exact h (Or.inr (Or.inl (by omega)))
        constructor
        · by_contra hx
          exact h (Or.inr (Or.inl (by omega)))
        · intro hx
          exact h (Or.inr (Or.inr hx))
      cases hv
      refine ⟨by dsimp only; omega, ?_⟩
      unfold FBuffer.ViewRes.content pySlice
      simp only
      rw [List.take_drop]
      have heq : start.toNat + (stop0.getD (buf.writepos : Int) - start).toNat =
          (stop0.getD (buf.writepos : Int)).toNat := by omega
      rw [heq]

/-- Witness for C8: a concrete buffer, both a valid and the default range. -/
theorem view_correct_witness :
    ((FBuffer.mk [97, 98, 99, 0] 3).view 1 (some 3) = Except.error PyError.valueError ↔
      ((some (3 : Int)).getD ((FBuffer.mk [97, 98, 99, 0] 3).writepos : Int) < 1 ∨
        (1 : Int) < 0 ∨ (1 : Int) > ((FBuffer.mk [97, 98, 99, 0] 3).writepos : Int) ∨
        (some (3 : Int)).getD ((FBuffer.mk [97, 98, 99, 0] 3).writepos : Int) >
          ((FBuffer.mk [97, 98, 99, 0] 3).writepos : Int))) ∧
    (∀ v : FBuffer.ViewRes, (FBuffer.mk [97, 98, 99, 0] 3).view 1 (some 3) = Except.ok v →
      (v.length : Int) =
        (some (3 : Int)).getD ((FBuffer.mk [97, 98, 99, 0] 3).writepos : Int) - 1 ∧
      v.content = pySlice [97, 98, 99, 0] (1 : Int).toNat
        ((some (3 : Int)).getD ((FBuffer.mk [97, 98, 99, 0] 3).writepos : Int)).toNat) :=
  view_correct ⟨[97, 98, 99, 0], 3⟩ 1 (some 3)

/-! ### Claim C9: pool round trip and release -/

/-- Claim C9: `release` always resets the write cursor to 0 and pushes the
buffer onto the free list only when the free count is below the pool
capacity, leaving the pool unchanged otherwise; and with a capacity-1 pool,
acquiring, writing (cursor at any `w`), releasing and acquiring again
returns the identical buffer instance (`id` 0, the one the pool was created
with) with its write cursor back at 0. -/
theorem pool_release_roundtrip (sz w : Nat) (p : BufferPool) (b : PoolBuf)
    (hinv : p.num_free ≤ p.capacity) :
    ((b.release p).1.writepos = 0 ∧
     (p.num_free < p.capacity →
        (b.release p).2.freelist = p.freelist.set p.num_free (some ⟨b.id, 0⟩) ∧
        (b.release p).2.num_free = p.num_free + 1) ∧
     (p.num_free = p.capacity → (b.release p).2 = p)) ∧
    ((BufferPool.init 1 sz).buffer.1 = some ⟨0, 0⟩ ∧
     ((PoolBuf.mk 0 w).release (BufferPool.init 1 sz).buffer.2).2.buffer.1 = some ⟨0, 0⟩) := by
  refine ⟨⟨rfl, ?_, ?_⟩, rfl, rfl⟩
  · intro hlt
    have hne : p.num_free ≠ p.capacity := by omega
    simp [PoolBuf.release, BufferPool.return_buffer, hne]
  · intro heq
    simp [PoolBuf.release, BufferPool.return_buffer, heq]

/-- Witness for C9 at a concrete pool state and buffer. -/
theorem pool_release_roundtrip_witness :
    (((PoolBuf.mk 5 7).release ⟨2, 16, [some ⟨0, 0⟩, none], 1, 2⟩).1.writepos = 0 ∧
     ((⟨2, 16, [some ⟨0, 0⟩, none], 1, 2⟩ : BufferPool).num_free <
        (⟨2, 16, [some ⟨0, 0⟩, none], 1, 2⟩ : BufferPool).capacity →
        ((PoolBuf.mk 5 7).release ⟨2, 16, [some ⟨0, 0⟩, none], 1, 2⟩).2.freelist =
          ([some ⟨0, 0⟩, none] : List (Option PoolBuf)).set 1 (some ⟨5, 0⟩) ∧
        ((PoolBuf.mk 5 7).release ⟨2, 16, [some ⟨0, 0⟩, none], 1, 2⟩).2.num_free = 1 + 1) ∧
     ((⟨2, 16, [some ⟨0, 0⟩, none], 1, 2⟩ : BufferPool).num_free =
        (⟨2, 16, [some ⟨0, 0⟩, none], 1, 2⟩ : BufferPool).capacity →
        ((PoolBuf.mk 5 7).release ⟨2, 16, [some ⟨0, 0⟩, none], 1, 2⟩).2 =
          ⟨2, 16, [some ⟨0, 0⟩, none], 1, 2⟩)) ∧
    ((BufferPool.init 1 16).buffer.1 = some ⟨0, 0⟩ ∧
     ((PoolBuf.mk 0 3).release (BufferPool.init 1 16).buffer.2).2.buffer.1 = some ⟨0, 0⟩) :=
  pool_release_roundtrip 16 3 ⟨2, 16, [some ⟨0, 0⟩, none], 1, 2⟩ ⟨5, 7⟩ (by decide)

/-! ### Bloom mask lemmas -/

theorem bloom_bloom_add_self (m c : Nat) :
    BufferView.bloom (BufferView.bloom_add m c) c ≠ 0 := by
  unfold BufferView.bloom BufferView.bloom_add
  rw [Nat.one_shiftLeft, Nat.and_two_pow, Nat.testBit_or]
  have ht : Nat.testBit (2 ^ (c &&& (BLOOM_WIDTH - 1))) (c &&& (BLOOM_WIDTH - 1)) = true :=
    Nat.testBit_two_pow_self
  rw [ht, Bool.or_true]
  simpa using (Nat.two_pow_pos (c &&& (BLOOM_WIDTH - 1))).ne'

theorem bloom_bloom_add_mono (m c d : Nat) (h : BufferView.bloom m c ≠ 0) :
    BufferView.bloom (BufferView.bloom_add m d) c ≠ 0 := by
  unfold BufferView.bloom BufferView.bloom_add at *
  simp only [Nat.one_shiftLeft] at h ⊢
  simp only [Nat.and_two_pow] at h ⊢
  rw [Nat.testBit_or]
  have hm : m.testBit (c &&& (BLOOM_WIDTH - 1)) = true := by
    by_contra hx
    rw [Bool.not_eq_true] at hx
    rw [hx] at h
    simp at h
  rw [hm, Bool.true_or]
  simpa using (Nat.two_pow_pos (c &&& (BLOOM_WIDTH - 1))).ne'

/-- An invariant carried through a fold over `List.range n`. -/
theorem fold_range_invariant {α : Type} (n : Nat) (f : α → Nat → α) (P : Nat → α → Prop)
    (init : α) (h0 : P 0 init) (hstep : ∀ k, k < n → ∀ a, P k a → P (k + 1) (f a k)) :
    P n ((List.range n).foldl f init) := by
  suffices h : ∀ m, m ≤ n → P m ((List.range m).foldl f init) from h n le_rfl
  intro m
  induction m with
  | zero => intro _; simpa using h0
  | succ m ih =>
    intro hm
    rw [List.range_succ, List.foldl_append, List.foldl_cons, List.foldl_nil]
    exact hstep m (by omega) _ (ih (by omega))

/-- The properties of `_make_find_mask` that the search loop needs: the skip
is a nonnegative integer at most `m - 2`; no distance `d` in `[1, skip]`
from the end of the needle holds the final byte; and a byte whose bloom test
misses the mask differs from every byte of the needle. -/
theorem make_find_mask_spec (N : List Nat) (h2 : 2 ≤ N.length) :
    0 ≤ (BufferView.make_find_mask N).2 ∧
    (BufferView.make_find_mask N).2.toNat ≤ N.length - 2 ∧
    (∀ d : Nat, 1 ≤ d → d ≤ (BufferView.make_find_mask N).2.toNat →
      N.getD (N.length - 1 - d) 0 ≠ N.getD (N.length - 1) 0) ∧
    (∀ c b, b ∈ N → BufferView.bloom (BufferView.make_find_mask N).1 c = 0 → c ≠ b) := by
  have key := fold_range_invariant (N.length - 1)
    (fun acc i =>
      (BufferView.bloom_add acc.1 (N.getD i 0),
       if N.getD i 0 = N.getD (N.length - 1) 0
       then ((N.length - 1 : Nat) : Int) - (i : Int) - 1 else acc.2))
    (fun k acc =>
      (0 ≤ acc.2 ∧ acc.2 ≤ ((N.length - 1 : Nat) : Int) - 1) ∧
      (∀ i : Nat, i < k → (((N.length - 1 : Nat) : Int) - 1 - acc.2) < (i : Int) →
        N.getD i 0 ≠ N.getD (N.length - 1) 0) ∧
      (∀ j : Nat, j < k → BufferView.bloom acc.1 (N.getD j 0) ≠ 0))
    (0, ((N.length - 1 : Nat) : Int) - 1)
    (by
      refine ⟨⟨by omega, le_rfl⟩, ?_, ?_⟩
      · intro i hi
        omega
      · intro j hj
        omega)
    (by
      intro k hk acc hP
      obtain ⟨⟨hge, hle⟩, hocc, hbl⟩ := hP
      dsimp only
      refine ⟨?_, ?_, ?_⟩
      · by_cases he : N.getD k 0 = N.getD (N.length - 1) 0
        · rw [if_pos he]
          omega
        · rw [if_neg he]
          exact ⟨hge, hle⟩
      · intro i hi hbig
        by_cases he : N.getD k 0 = N.getD (N.length - 1) 0
        · rw [if_pos he] at hbig
          omega
        · rw [if_neg he] at hbig
          rcases Nat.lt_or_ge i k with hik | hik
          · exact hocc i hik hbig
          · have hike : i = k := by omega
            subst hike
            exact he
      · intro j hj
        rcases Nat.lt_or_ge j k with hjk | hjk
        · exact bloom_bloom_add_mono _ _ _ (hbl j hjk)
        · have hjke : j = k := by omega
          subst hjke
          exact bloom_bloom_add_self _ _)
  set R := (List.range (N.length - 1)).foldl
    (fun acc i =>
      (BufferView.bloom_add acc.1 (N.getD i 0),
       if N.getD i 0 = N.getD (N.length - 1) 0
       then ((N.length - 1 : Nat) : Int) - (i : Int) - 1 else acc.2))
    (0, ((N.length - 1 : Nat) : Int) - 1) with hRdef
  have hm2 : (BufferView.make_find_mask N).2 = R.2 := rfl
  have hm1 : (BufferView.make_find_mask N).1 =
      BufferView.bloom_add R.1 (N.getD (N.length - 1) 0) := rfl
  obtain ⟨⟨hge, hle⟩, hocc, hbl⟩ := key
  refine ⟨by omega, by omega, ?_, ?_⟩
  · intro d hd1 hd2
    rw [hm2] at hd2
    apply hocc (N.length - 1 - d)
    · omega
    · omega
  · intro c b hb hbloom hcb
    subst hcb
    obtain ⟨j, hj, hbj⟩ := List.mem_iff_getElem.mp hb
    rw [hm1] at hbloom
    rcases Nat.lt_or_ge j (N.length - 1) with hjl | hjl
    · have hcj : N.getD j 0 = c := by rw [getD_eq_getElem_of_lt N j hj, hbj]
      have hmem := bloom_bloom_add_mono _ _ (N.getD (N.length - 1) 0) (hbl j hjl)
      rw [hcj] at hmem
      exact hmem hbloom
    · have hje : j = N.length - 1 := by omega
      have hc : N.getD (N.length - 1) 0 = c := by
        rw [← hje, getD_eq_getElem_of_lt N j hj, hbj]
      have hmem := bloom_bloom_add_self R.1 (N.getD (N.length - 1) 0)
      rw [hc] at hmem hbloom
      exact hmem hbloom

/-! ### MatchAt bridges -/

theorem byteAt_coe (H : List Nat) (p : Nat) : byteAt H (p : Int) = H.getD p 0 := by
  simp [byteAt]

theorem matchAt_length (H N : List Nat) (k : Nat) (h1 : 1 ≤ N.length) (h : MatchAt H N k) :
    k + N.length ≤ H.length := by
  unfold MatchAt at h
  have hlen := congrArg List.length h
  simp only [List.length_take, List.length_drop] at hlen
  omega

theorem matchAt_pt (H N : List Nat) (k : Nat) (h : MatchAt H N k) : PtMatch H N k := by
  intro j hj
  unfold MatchAt at h
  have hlen := congrArg List.length h
  simp only [List.length_take, List.length_drop] at hlen
  have hkj : k + j < H.length := by omega
  have hswap : N.getD j 0 = ((H.drop k).take N.length).getD j 0 := by rw [h]
  rw [hswap, List.getD_eq_getElem?_getD, List.getD_eq_getElem?_getD,
    List.getElem?_take_of_lt hj, List.getElem?_drop]

theorem pt_matchAt (H N : List Nat) (k : Nat) (hk : k + N.length ≤ H.length)
    (h : PtMatch H N k) : MatchAt H N k := by
  unfold MatchAt
  apply List.ext_getElem
  · simp only [List.length_take, List.length_drop]
    omega
  · intro i h1 h2
    have hiN : i < N.length := h2
    have hpt := h i hiN
    have hki : k + i < H.length := by omega
    rw [getD_eq_getElem_of_lt H (k + i) hki, getD_eq_getElem_of_lt N i hiN] at hpt
    have e1 : ((H.drop k).take N.length)[i]? = H[k + i]? := by
      rw [List.getElem?_take_of_lt hiN, List.getElem?_drop]
    rw [List.getElem?_eq_getElem h1, List.getElem?_eq_getElem hki] at e1
    injection e1 with e1
    rw [e1]
    exact hpt

/-! ### memchr specification -/

theorem memchrFrom_spec (H : List Nat) (c : Nat) :
    ∀ (count i : Nat),
      (BufferView.memchrFrom H c i count = -1 ∧
        ∀ k : Nat, i ≤ k → k < i + count → k < H.length → H.getD k 0 ≠ c) ∨
      (∃ r : Nat, BufferView.memchrFrom H c i count = (r : Int) ∧ i ≤ r ∧ r < i + count ∧
        r < H.length ∧ H.getD r 0 = c ∧ ∀ k : Nat, i ≤ k → k < r → H.getD k 0 ≠ c) := by
  intro count
  induction count with
  | zero =>
    intro i
    left
    exact ⟨rfl, by omega⟩
  | succ count ih =>
    intro i
    simp only [BufferView.memchrFrom]
    split_ifs with h1 h2
    · right
      exact ⟨i, rfl, le_rfl, by omega, h1.1, h1.2, by omega⟩
    · rcases ih (i + 1) with ⟨hm, hall⟩ | ⟨r, hr, hir, hcnt, hrH, hrc, hmin⟩
      · left
        refine ⟨hm, ?_⟩
        intro k hk1 hk2 hk3
        rcases Nat.eq_or_lt_of_le hk1 with hik | hik
        · intro hc
          exact h1 ⟨hik ▸ hk3, hik ▸ hc⟩
        · exact hall k hik (by omega) hk3
      · right
        refine ⟨r, hr, by omega, by omega, hrH, hrc, ?_⟩
        intro k hk1 hk2
        rcases Nat.eq_or_lt_of_le hk1 with hik | hik
        · intro hc
          exact h1 ⟨by omega, hik ▸ hc⟩
        · exact hmin k hik hk2
    · left
      refine ⟨rfl, ?_⟩
      intro k hk1 _ hk3
      omega

/-! ### The Boyer-Moore-Horspool loop specification -/

theorem multi_char_find_loop_spec (H N : List Nat) (mask : Nat) (skip : Nat)
    (hN : 2 ≤ N.length)
    (hmask : ∀ c b, b ∈ N → BufferView.bloom mask c = 0 → c ≠ b)
    (hskip : ∀ d : Nat, 1 ≤ d → d ≤ skip →
      N.getD (N.length - 1 - d) 0 ≠ N.getD (N.length - 1) 0)
    (hskipB : skip ≤ N.length - 2)
    (start stop : Int) (h0 : 0 ≤ start) (hsH : stop ≤ (H.length : Int)) :
    ∀ (fuel : Nat) (i : Int), start - 1 ≤ i →
      (stop - (N.length : Int) - i).toNat < fuel →
      (∀ k : Nat, start ≤ (k : Int) → (k : Int) ≤ i → ¬ PtMatch H N k) →
      (BufferView.multi_char_find_loop H N start stop mask skip fuel i = -1 ∧
        ∀ k : Nat, start ≤ (k : Int) → (k : Int) + (N.length : Int) ≤ stop →
          ¬ MatchAt H N k) ∨
      (∃ r : Nat,
        BufferView.multi_char_find_loop H N start stop mask skip fuel i = (r : Int) ∧
        start ≤ (r : Int) ∧ (r : Int) + (N.length : Int) ≤ stop ∧ MatchAt H N r ∧
        ∀ k : Nat, start ≤ (k : Int) → k < r → ¬ MatchAt H N k) := by
  intro fuel
  induction fuel with
  | zero =>
    intro i _ hfuel _
    omega
  | succ fuel ih =>
    intro i hi hfuel hinv
    by_cases hguard : i + 1 ≤ start + ((stop - start) - (N.length : Int))
    case neg =>
      left
      constructor
      · simp only [BufferView.multi_char_find_loop]
        rw [if_neg hguard]
      · intro k hk1 hk2 hM
        exact hinv k hk1 (by omega) (matchAt_pt H N k hM)
    case pos =>
      obtain ⟨p, hp⟩ : ∃ p : Nat, (p : Int) = i + 1 := ⟨(i + 1).toNat, by omega⟩
      have hstartp : start ≤ (p : Int) := by omega
      have hplen : (p : Int) + (N.length : Int) ≤ stop := by omega
      have ecoe : ∀ m : Nat, byteAt H ((i + 1) + (m : Int)) = H.getD (p + m) 0 := by
        intro m
        have e : (i + 1) + (m : Int) = ((p + m : Nat) : Int) := by omega
        rw [e, byteAt_coe]
      have elast : byteAt H ((i + 1) + (N.length : Int) - 1) =
          H.getD (p + (N.length - 1)) 0 := by
        have e : (i + 1) + (N.length : Int) - 1 = ((p + (N.length - 1) : Nat) : Int) := by
          omega
        rw [e, byteAt_coe]
      -- the three decision points of one loop iteration
      by_cases hlast : byteAt H ((i + 1) + (N.length : Int) - 1) = N.getD (N.length - 1) 0
      · by_cases hall : ∀ j < N.length - 1,
            byteAt H ((i + 1) + (j : Int)) = N.getD j 0
        · -- full match at p: return i + 1
          right
          refine ⟨p, ?_, hstartp, hplen, ?_, ?_⟩
          · simp only [BufferView.multi_char_find_loop]
            rw [if_pos hguard, if_pos hlast, if_pos hall, hp]
          · apply pt_matchAt H N p (by omega)
            intro j hj
            rcases Nat.lt_or_ge j (N.length - 1) with hjl | hjl
            · have := hall j hjl
              rwa [ecoe j] at this
            · have hje : j = N.length - 1 := by omega
              subst hje
              rwa [elast] at hlast
          · intro k hk1 hk2 hM
            exact hinv k hk1 (by omega) (matchAt_pt H N k hM)
        · -- last byte matched, inner comparison failed
          have hnotp : ¬ PtMatch H N p := by
            intro hPt
            apply hall
            intro j hj
            rw [ecoe j]
            exact hPt j (by omega)
          by_cases hbloom : (i + 1) + (N.length : Int) < (H.length : Int) ∧
              BufferView.bloom mask (byteAt H ((i + 1) + (N.length : Int))) = 0
          · -- skip a full needle length past the bloom miss
            have hext : ∀ k : Nat, start ≤ (k : Int) →
                (k : Int) ≤ (i + 1) + (N.length : Int) → ¬ PtMatch H N k := by
              intro k hk1 hk2 hPt
              rcases Int.lt_or_le i (k : Int) with hik | hik
              · -- p ≤ k ≤ p + N.length
                rcases Nat.eq_or_lt_of_le (show p ≤ k by omega) with hpk | hpk
                · exact hnotp (hpk ▸ hPt)
                · have hj : p + N.length - k < N.length := by omega
                  have hkj : k + (p + N.length - k) = p + N.length := by omega
                  have hbyte := hPt (p + N.length - k) hj
                  rw [hkj] at hbyte
                  have hb2 := hbloom.2
                  rw [ecoe N.length] at hb2
                  have hmem : N.getD (p + N.length - k) 0 ∈ N := by
                    rw [getD_eq_getElem_of_lt N _ hj]
                    exact List.getElem_mem hj
                  exact hmask _ _ hmem hb2 hbyte
              · exact hinv k hk1 hik hPt
            have heval : BufferView.multi_char_find_loop H N start stop mask skip
                (fuel + 1) i = BufferView.multi_char_find_loop H N start stop mask skip
                fuel ((i + 1) + (N.length : Int)) := by
              simp only [BufferView.multi_char_find_loop]
              rw [if_pos hguard, if_pos hlast, if_neg hall, if_pos hbloom]
            rw [heval]
            exact ih ((i + 1) + (N.length : Int)) (by omega) (by omega) hext
          · -- fall back to the precomputed skip
            have hlastD : H.getD (p + (N.length - 1)) 0 = N.getD (N.length - 1) 0 := by
              rwa [elast] at hlast
            have hext : ∀ k : Nat, start ≤ (k : Int) →
                (k : Int) ≤ (i + 1) + (skip : Int) → ¬ PtMatch H N k := by
              intro k hk1 hk2 hPt
              rcases Int.lt_or_le i (k : Int) with hik | hik
              · rcases Nat.eq_or_lt_of_le (show p ≤ k by omega) with hpk | hpk
                · exact hnotp (hpk ▸ hPt)
                · have hd1 : 1 ≤ k - p := by omega
                  have hd2 : k - p ≤ skip := by omega
                  have hj : N.length - 1 - (k - p) < N.length := by omega
                  have hkj : k + (N.length - 1 - (k - p)) = p + (N.length - 1) := by omega
                  have hbyte := hPt (N.length - 1 - (k - p)) hj
                  rw [hkj, hlastD] at hbyte
                  exact hskip (k - p) hd1 hd2 hbyte.symm
              · exact hinv k hk1 hik hPt
            have heval : BufferView.multi_char_find_loop H N start stop mask skip
                (fuel + 1) i = BufferView.multi_char_find_loop H N start stop mask skip
                fuel ((i + 1) + (skip : Int)) := by
              simp only [BufferView.multi_char_find_loop]
              rw [if_pos hguard, if_pos hlast, if_neg hall, if_neg hbloom]
            rw [heval]
            exact ih ((i + 1) + (skip : Int)) (by omega) (by omega) hext
      · -- last byte did not match at p
        have hnotp : ¬ PtMatch H N p := by
          intro hPt
          apply hlast
          rw [elast]
          exact hPt (N.length - 1) (by omega)
        by_cases hbloom : (i + 1) + (N.length : Int) < (H.length : Int) ∧
            BufferView.bloom mask (byteAt H ((i + 1) + (N.length : Int))) = 0
        · have hext : ∀ k : Nat, start ≤ (k : Int) →
              (k : Int) ≤ (i + 1) + (N.length : Int) → ¬ PtMatch H N k := by
            intro k hk1 hk2 hPt
            rcases Int.lt_or_le i (k : Int) with hik | hik
            · rcases Nat.eq_or_lt_of_le (show p ≤ k by omega) with hpk | hpk
              · exact hnotp (hpk ▸ hPt)
              · have hj : p + N.length - k < N.length := by omega
                have hkj : k + (p + N.length - k) = p + N.length := by omega
                have hbyte := hPt (p + N.length - k) hj
                rw [hkj] at hbyte
                have hb2 := hbloom.2
                rw [ecoe N.length] at hb2
                have hmem : N.getD (p + N.length - k) 0 ∈ N := by
                  rw [getD_eq_getElem_of_lt N _ hj]
                  exact List.getElem_mem hj
                exact hmask _ _ hmem hb2 hbyte
            · exact hinv k hk1 hik hPt
          have heval : BufferView.multi_char_find_loop H N start stop mask skip
              (fuel + 1) i = BufferView.multi_char_find_loop H N start stop mask skip
              fuel ((i + 1) + (N.length : Int)) := by
            simp only [BufferView.multi_char_find_loop]
            rw [if_pos hguard, if_neg hlast, if_pos hbloom]
          rw [heval]
          exact ih ((i + 1) + (N.length : Int)) (by omega) (by omega) hext
        · have hext : ∀ k : Nat, start ≤ (k : Int) → (k : Int) ≤ i + 1 →
              ¬ PtMatch H N k := by
            intro k hk1 hk2 hPt
            rcases Int.lt_or_le i (k : Int) with hik | hik
            · have hpk : p = k := by omega
              exact hnotp (hpk ▸ hPt)
            · exact hinv k hk1 hik hPt
          have heval : BufferView.multi_char_find_loop H N start stop mask skip
              (fuel + 1) i = BufferView.multi_char_find_loop H N start stop mask skip
              fuel (i + 1) := by
            simp only [BufferView.multi_char_find_loop]
            rw [if_pos hguard, if_neg hlast, if_neg hbloom]
          rw [heval]
          exact ih (i + 1) (by omega) (by omega) hext

/-- `_multi_char_find`, called exactly as `find` and `_split_multi_char`
call it (mask and skip from `_make_find_mask`), returns the leftmost
occurrence in `[start, stop - len(N)]` or -1. -/
theorem multi_char_find_spec (H N : List Nat) (start stop : Int)
    (hN : 2 ≤ N.length) (h0 : 0 ≤ start) (hsH : stop ≤ (H.length : Int)) :
    (BufferView.multi_char_find H N start stop (BufferView.make_find_mask N).1
        (BufferView.make_find_mask N).2 = -1 ∧
      ∀ k : Nat, start ≤ (k : Int) → (k : Int) + (N.length : Int) ≤ stop →
        ¬ MatchAt H N k) ∨
    (∃ r : Nat, BufferView.multi_char_find H N start stop (BufferView.make_find_mask N).1
        (BufferView.make_find_mask N).2 = (r : Int) ∧
      start ≤ (r : Int) ∧ (r : Int) + (N.length : Int) ≤ stop ∧ MatchAt H N r ∧
      ∀ k : Nat, start ≤ (k : Int) → k < r → ¬ MatchAt H N k) := by
  obtain ⟨hge, hle, hP2, hP1⟩ := make_find_mask_spec N hN
  unfold BufferView.multi_char_find
  exact multi_char_find_loop_spec H N (BufferView.make_find_mask N).1
    (BufferView.make_find_mask N).2.toNat hN hP1 hP2 hle start stop h0 hsH
    ((stop - start).toNat + 1) (start - 1) (by omega) (by omega)
    (by intro k hk1 hk2 _; omega)

/-! ### Claim C1: multi-byte Boyer-Moore-Horspool find -/

/-- Claim C1: for every view `H`, needle `N` with `len(N) >= 2`, and clamped
range `[start, stop)` with `stop <= len(H)`, the multi-byte search (the
`_make_find_mask` plus `_multi_char_find` pair that `BufferView.find`
invokes) returns the smallest index `i` with
`start <= i <= stop - len(N)` and `H[i:i+len(N)] == N`, and -1 when no such
index exists: the bloom skip and the precomputed skip never jump past a
valid match. -/
theorem multi_char_find_correct (H N : List Nat) (start stop : Nat)
    (h2 : 2 ≤ N.length) (h1 : start ≤ stop) (hH : stop ≤ H.length) :
    (BufferView.multi_char_find H N (start : Int) (stop : Int)
        (BufferView.make_find_mask N).1 (BufferView.make_find_mask N).2 = -1 ∧
      ∀ k : Nat, start ≤ k → k + N.length ≤ stop → ¬ MatchAt H N k) ∨
    (∃ r : Nat, BufferView.multi_char_find H N (start : Int) (stop : Int)
        (BufferView.make_find_mask N).1 (BufferView.make_find_mask N).2 = (r : Int) ∧
      start ≤ r ∧ r + N.length ≤ stop ∧ MatchAt H N r ∧
      ∀ k : Nat, start ≤ k → k < r → ¬ MatchAt H N k) := by
  rcases multi_char_find_spec H N (start : Int) (stop : Int) h2 (by omega) (by omega) with
    ⟨hm, hall⟩ | ⟨r, hr, h3, h4, h5, h6⟩
  · left
    exact ⟨hm, fun k hk1 hk2 => hall k (by omega) (by omega)⟩
  · right
    exact ⟨r, hr, by omega, by omega, h5, fun k hk1 hk2 => h6 k (by omega) hk2⟩

/-- Witness for C1 at the haystack `b"aaaaaab"` and needle `b"aaab"` named
by the spec (the match is at index 3, after the bloom-skip fallback path). -/
theorem multi_char_find_correct_witness :
    (BufferView.multi_char_find [97, 97, 97, 97, 97, 97, 98] [97, 97, 97, 98]
        ((0 : Nat) : Int) ((7 : Nat) : Int)
        (BufferView.make_find_mask [97, 97, 97, 98]).1
        (BufferView.make_find_mask [97, 97, 97, 98]).2 = -1 ∧
      ∀ k : Nat, 0 ≤ k → k + ([97, 97, 97, 98] : List Nat).length ≤ 7 →
        ¬ MatchAt [97, 97, 97, 97, 97, 97, 98] [97, 97, 97, 98] k) ∨
    (∃ r : Nat, BufferView.multi_char_find [97, 97, 97, 97, 97, 97, 98] [97, 97, 97, 98]
        ((0 : Nat) : Int) ((7 : Nat) : Int)
        (BufferView.make_find_mask [97, 97, 97, 98]).1
        (BufferView.make_find_mask [97, 97, 97, 98]).2 = (r : Int) ∧
      0 ≤ r ∧ r + ([97, 97, 97, 98] : List Nat).length ≤ 7 ∧
      MatchAt [97, 97, 97, 97, 97, 97, 98] [97, 97, 97, 98] r ∧
      ∀ k : Nat, 0 ≤ k → k < r → ¬ MatchAt [97, 97, 97, 97, 97, 97, 98] [97, 97, 97, 98] k) :=
  multi_char_find_correct [97, 97, 97, 97, 97, 97, 98] [97, 97, 97, 98] 0 7
    (by decide) (by decide) (by decide)

/-! ### Single-byte find and the split loops -/

theorem find_single_spec (H : List Nat) (c : Nat) (start : Nat) (hst : start ≤ H.length) :
    (BufferView.find H [c] (start : Int) none = -1 ∧
      ∀ k : Nat, start ≤ k → k < H.length → H.getD k 0 ≠ c) ∨
    (∃ r : Nat, BufferView.find H [c] (start : Int) none = (r : Int) ∧ start ≤ r ∧
      r < H.length ∧ H.getD r 0 = c ∧ ∀ k : Nat, start ≤ k → k < r → H.getD k 0 ≠ c) := by
  have hfind : BufferView.find H [c] (start : Int) none =
      BufferView.memchrFrom H c start (H.length - start) := by
    simp only [BufferView.find, orLen]
    rw [if_neg (by omega : ¬((start : Int) < 0)),
      if_neg (by omega : ¬((H.length : Int) > (H.length : Int))),
      if_neg (by omega : ¬((H.length : Int) - (start : Int) < 0))]
    norm_num
  rw [hfind]
  rcases memchrFrom_spec H c (H.length - start) start with
    ⟨hm, hall⟩ | ⟨r, hr, h3, h4, h5, h6, h7⟩
  · left
    exact ⟨hm, fun k hk1 hk2 => hall k hk1 (by omega) hk2⟩
  · right
    exact ⟨r, hr, h3, h5, h6, fun k hk1 hk2 => h7 k hk1 hk2⟩

theorem joinSep_cons (sep p : List Nat) (ps : List (List Nat)) (h : ps ≠ []) :
    joinSep sep (p :: ps) = p ++ sep ++ joinSep sep ps := by
  cases ps with
  | nil => exact absurd rfl h
  | cons q rs => rfl

theorem joinSep_nil_single (sep : List Nat) (hsep : 1 ≤ sep.length) (ps : List (List Nat))
    (hne : ps ≠ []) (hj : joinSep sep ps = []) : ps = [[]] := by
  cases ps with
  | nil => exact absurd rfl hne
  | cons p qs =>
    cases qs with
    | nil =>
      simp only [joinSep] at hj
      rw [hj]
    | cons q rs =>
      rw [joinSep_cons _ _ _ (by simp)] at hj
      have hps := (List.append_eq_nil.mp hj).1
      have hsnil := (List.append_eq_nil.mp hps).2
      rw [hsnil] at hsep
      simp at hsep

theorem drop_reconstruct (H sep : List Nat) (start r s : Nat)
    (h1 : start ≤ r) (hsep : (H.drop r).take s = sep) :
    pySlice H start r ++ sep ++ H.drop (r + s) = H.drop start := by
  have e1 : pySlice H start r = (H.drop start).take (r - start) := by
    unfold pySlice
    have e : start + (r - start) = r := by omega
    rw [List.take_drop, e]
  have e2 : (H.drop start).drop (r - start) = H.drop r := by
    rw [List.drop_drop]
    have e : start + (r - start) = r := by omega
    rw [e]
  have e3 : H.drop r = sep ++ H.drop (r + s) := by
    conv_lhs => rw [← List.take_append_drop s (H.drop r)]
    rw [hsep, List.drop_drop]
  calc pySlice H start r ++ sep ++ H.drop (r + s)
      = (H.drop start).take (r - start) ++ (sep ++ H.drop (r + s)) := by
        rw [e1, List.append_assoc]
    _ = (H.drop start).take (r - start) ++ H.drop r := by rw [← e3]
    _ = (H.drop start).take (r - start) ++ (H.drop start).drop (r - start) := by rw [e2]
    _ = H.drop start := List.take_append_drop _ _

theorem split_char_loop_ne_nil (H by_ : List Nat) (fuel : Nat) (ms : Int) (start : Nat) :
    BufferView.split_char_loop H by_ fuel ms start ≠ [] := by
  cases fuel with
  | zero => simp [BufferView.split_char_loop]
  | succ fuel =>
    simp only [BufferView.split_char_loop]
    split_ifs <;> simp

theorem split_multi_loop_ne_nil (H by_ : List Nat) (mask : Nat) (skip : Int) (fuel : Nat)
    (ms : Int) (start : Nat) :
    BufferView.split_multi_loop H by_ mask skip fuel ms start ≠ [] := by
  cases fuel with
  | zero => simp [BufferView.split_multi_loop]
  | succ fuel =>
    simp only [BufferView.split_multi_loop]
    split_ifs <;> simp

theorem split_char_loop_join (H : List Nat) (c : Nat) :
    ∀ (fuel : Nat) (ms : Int) (start : Nat), start ≤ H.length → H.length - start < fuel →
      joinSep [c] (BufferView.split_char_loop H [c] fuel ms start) = H.drop start := by
  intro fuel
  induction fuel with
  | zero =>
    intro ms start h1 h2
    omega
  | succ fuel ih =>
    intro ms start h1 h2
    simp only [BufferView.split_char_loop]
    by_cases hms : ms ≠ 0
    · rw [if_pos hms]
      rcases find_single_spec H c start h1 with ⟨hm, _⟩ | ⟨r, hr, h3, h4, h5, h6⟩
      · rw [hm, if_pos rfl]
        rfl
      · rw [hr, if_neg (by omega : ¬((r : Int) = -1))]
        have htn : (r : Int).toNat = r := by omega
        rw [htn]
        rw [joinSep_cons _ _ _ (split_char_loop_ne_nil H [c] fuel (ms - 1) (r + 1))]
        rw [ih (ms - 1) (r + 1) (by omega) (by omega)]
        have hsep : (H.drop r).take 1 = [c] := by
          rw [List.drop_eq_getElem_cons h4]
          simp only [List.take_succ_cons, List.take_zero]
          rw [← getD_eq_getElem_of_lt H r h4, h5]
        exact drop_reconstruct H [c] start r 1 h3 hsep
    · rw [if_neg hms]
      rfl

theorem split_multi_loop_join (H by_ : List Nat) (h2 : 2 ≤ by_.length) :
    ∀ (fuel : Nat) (ms : Int) (start : Nat), start ≤ H.length → H.length - start < fuel →
      joinSep by_ (BufferView.split_multi_loop H by_ (BufferView.make_find_mask by_).1
        (BufferView.make_find_mask by_).2 fuel ms start) = H.drop start := by
  intro fuel
  induction fuel with
  | zero =>
    intro ms start h1 hf
    omega
  | succ fuel ih =>
    intro ms start h1 hf
    simp only [BufferView.split_multi_loop]
    by_cases hms : ms ≠ 0
    · rw [if_pos hms]
      rcases multi_char_find_spec H by_ (start : Int) (H.length : Int) h2 (by omega)
          (by omega) with ⟨hm, _⟩ | ⟨r, hr, h3, h4, h5, h6⟩
      · rw [hm, if_pos (by omega : (-1 : Int) < 0)]
        rfl
      · rw [hr, if_neg (by omega : ¬((r : Int) < 0))]
        have htn : (r : Int).toNat = r := by omega
        rw [htn]
        rw [joinSep_cons _ _ _ (split_multi_loop_ne_nil H by_
          (BufferView.make_find_mask by_).1 (BufferView.make_find_mask by_).2 fuel
          (ms - 1) (r + by_.length))]
        rw [ih (ms - 1) (r + by_.length) (by omega) (by omega)]
        exact drop_reconstruct H by_ start r by_.length (by omega) h5
    · rw [if_neg hms]
      rfl

/-! ### Claim C4: split followed by re-inserting the separator -/

/-- Claim C4: for every view `H` and non-empty separator, the pieces yielded
by `split(H, sep, -1)`, re-joined by inserting `sep` between consecutive
pieces, equal `H` exactly; split always yields at least one piece; and
splitting an empty view yields exactly one empty piece. -/
theorem split_reconstruct (H sep : List Nat) (hsep : 1 ≤ sep.length) :
    ∃ pieces : List (List Nat), BufferView.split H sep (-1) = Except.ok pieces ∧
      joinSep sep pieces = H ∧ pieces ≠ [] ∧ (H = [] → pieces = [[]]) := by
  rcases Nat.eq_or_lt_of_le hsep with h1 | h2
  · obtain ⟨c, hc⟩ := List.length_eq_one.mp h1.symm
    subst hc
    have hjoin : joinSep [c] (BufferView.split_char_loop H [c] (H.length + 1) (-1) 0) = H := by
      have := split_char_loop_join H c (H.length + 1) (-1) 0 (by omega) (by omega)
      simpa using this
    refine ⟨BufferView.split_char_loop H [c] (H.length + 1) (-1) 0, ?_, hjoin, ?_, ?_⟩
    · simp [BufferView.split]
    · exact split_char_loop_ne_nil H [c] (H.length + 1) (-1) 0
    · intro hH
      subst hH
      exact joinSep_nil_single [c] (by simp) _
        (split_char_loop_ne_nil [] [c] 1 (-1) 0) hjoin
  · have hjoin : joinSep sep (BufferView.split_multi_loop H sep
        (BufferView.make_find_mask sep).1 (BufferView.make_find_mask sep).2
        (H.length + 1) (-1) 0) = H := by
      have := split_multi_loop_join H sep (by omega) (H.length + 1) (-1) 0 (by omega)
        (by omega)
      simpa using this
    refine ⟨BufferView.split_multi_loop H sep (BufferView.make_find_mask sep).1
      (BufferView.make_find_mask sep).2 (H.length + 1) (-1) 0, ?_, hjoin, ?_, ?_⟩
    · unfold BufferView.split
      rw [if_neg (by omega), if_neg (by omega)]
    · exact split_multi_loop_ne_nil H sep _ _ (H.length + 1) (-1) 0
    · intro hH
      subst hH
      exact joinSep_nil_single sep (by omega) _
        (split_multi_loop_ne_nil [] sep _ _ 1 (-1) 0) hjoin

/-- Witness for C4 at the spec scenario `split(b"a::b::c", b"::", -1)`. -/
theorem split_reconstruct_witness :
    ∃ pieces : List (List Nat),
      BufferView.split [97, 58, 58, 98, 58, 58, 99] [58, 58] (-1) = Except.ok pieces ∧
      joinSep [58, 58] pieces = [97, 58, 58, 98, 58, 58, 99] ∧ pieces ≠ [] ∧
      ([97, 58, 58, 98, 58, 58, 99] = ([] : List Nat) → pieces = [[]]) :=
  split_reconstruct [97, 58, 58, 98, 58, 58, 99] [58, 58] (by decide)

/-! ### Claim C6 (amended): the table build phase -/

theorem testBit_bloom_add_self (m c : Nat) :
    Nat.testBit (BufferView.bloom_add m c) (c % BLOOM_WIDTH) = true := by
  unfold BufferView.bloom_add
  rw [Nat.one_shiftLeft, Nat.testBit_or]
  have he : c &&& (BLOOM_WIDTH - 1) = c % BLOOM_WIDTH := by
    have h64 : (BLOOM_WIDTH - 1) = 2 ^ 6 - 1 := by norm_num [BLOOM_WIDTH]
    rw [h64, Nat.and_pow_two_sub_one_eq_mod]
    norm_num [BLOOM_WIDTH]
  rw [he, Nat.testBit_two_pow_self, Bool.or_true]

theorem testBit_bloom_add_mono (m c : Nat) (j : Nat) (h : Nat.testBit m j = true) :
    Nat.testBit (BufferView.bloom_add m c) j = true := by
  unfold BufferView.bloom_add
  rw [Nat.testBit_or, h, Bool.true_or]

/-- Claim C6 (amended): for a needle of length `m >= 2` whose final byte also
occurs at an earlier position, with `i` the largest index below `m - 1`
holding the final byte, `_make_find_mask` returns
`skip = (m - 1) - i - 1`, i.e. one less than the distance from that
occurrence to the end (the loop's own increment supplies the missing one,
so the effective shift is the distance); and the returned bitmask has the
bit `b mod 64` set for every byte `b` of the needle. -/
theorem make_find_mask_correct (N : List Nat) (i : Nat) (h2 : 2 ≤ N.length)
    (hi : i < N.length - 1) (hocc : N.getD i 0 = N.getD (N.length - 1) 0)
    (hmax : ∀ j : Nat, i < j → j < N.length - 1 → N.getD j 0 ≠ N.getD (N.length - 1) 0) :
    (BufferView.make_find_mask N).2 = ((N.length - 1 : Nat) : Int) - (i : Int) - 1 ∧
    ∀ b ∈ N, Nat.testBit (BufferView.make_find_mask N).1 (b % BLOOM_WIDTH) = true := by
  have key := fold_range_invariant (N.length - 1)
    (fun acc j =>
      (BufferView.bloom_add acc.1 (N.getD j 0),
       if N.getD j 0 = N.getD (N.length - 1) 0
       then ((N.length - 1 : Nat) : Int) - (j : Int) - 1 else acc.2))
    (fun k acc =>
      (i < k → acc.2 = ((N.length - 1 : Nat) : Int) - (i : Int) - 1) ∧
      (∀ j : Nat, j < k → Nat.testBit acc.1 (N.getD j 0 % BLOOM_WIDTH) = true))
    (0, ((N.length - 1 : Nat) : Int) - 1)
    (by
      constructor
      · intro hik
        omega
      · intro j hj
        omega)
    (by
      intro k hk acc hP
      obtain ⟨hskipP, hmaskP⟩ := hP
      dsimp only
      constructor
      · intro hik
        by_cases he : N.getD k 0 = N.getD (N.length - 1) 0
        · rw [if_pos he]
          have hike : i = k := by
            by_contra hne
            have hikk : i < k := by omega
            exact hmax k hikk hk he
          rw [hike]
        · rw [if_neg he]
          have hikk : i < k := by
            rcases Nat.lt_or_ge i k with h | h
            · exact h
            · have hike : i = k := by omega
              rw [hike] at hocc
              exact absurd hocc he
          exact hskipP hikk
      · intro j hj
        rcases Nat.lt_or_ge j k with hjk | hjk
        · exact testBit_bloom_add_mono _ _ _ (hmaskP j hjk)
        · have hjke : j = k := by omega
          subst hjke
          exact testBit_bloom_add_self _ _)
  set R := (List.range (N.length - 1)).foldl
    (fun acc j =>
      (BufferView.bloom_add acc.1 (N.getD j 0),
       if N.getD j 0 = N.getD (N.length - 1) 0
       then ((N.length - 1 : Nat) : Int) - (j : Int) - 1 else acc.2))
    (0, ((N.length - 1 : Nat) : Int) - 1) with hRdef
  have hm2 : (BufferView.make_find_mask N).2 = R.2 := rfl
  have hm1 : (BufferView.make_find_mask N).1 =
      BufferView.bloom_add R.1 (N.getD (N.length - 1) 0) := rfl
  obtain ⟨hskipP, hmaskP⟩ := key
  constructor
  · rw [hm2]
    exact hskipP hi
  · intro b hb
    obtain ⟨j, hj, hbj⟩ := List.mem_iff_getElem.mp hb
    have hcj : N.getD j 0 = b := by rw [getD_eq_getElem_of_lt N j hj, hbj]
    rw [hm1]
    rcases Nat.lt_or_ge j (N.length - 1) with hjl | hjl
    · have := testBit_bloom_add_mono R.1 (N.getD (N.length - 1) 0) _ (hmaskP j hjl)
      rwa [hcj] at this
    · have hje : j = N.length - 1 := by omega
      have hc : N.getD (N.length - 1) 0 = b := by rw [← hje]; exact hcj
      rw [hc]
      exact testBit_bloom_add_self R.1 b

/-- Witness for the amended C6 at the needle `b"aba"` (final byte 97 occurs
last at index 0, so the returned skip is `(3 - 1) - 0 - 1 = 1`). -/
theorem make_find_mask_correct_witness :
    (BufferView.make_find_mask [97, 98, 97]).2 =
      ((([97, 98, 97] : List Nat).length - 1 : Nat) : Int) - ((0 : Nat) : Int) - 1 ∧
    ∀ b ∈ ([97, 98, 97] : List Nat),
      Nat.testBit (BufferView.make_find_mask [97, 98, 97]).1 (b % BLOOM_WIDTH) = true :=
  make_find_mask_correct [97, 98, 97] 0 (by decide) (by decide) (by decide)
    (by
      intro j hj1 hj2
      simp only [List.length_cons, List.length_nil] at hj2
      have hj : j = 1 := by omega
      subst hj
      decide)
